import Mathlib

/-!
Verification of the coroutine thread-pool runtime (main.cpp).

The development embeds the runtime in three layers:

* `Pool` namespace — the worker pool (`thread_pool`): the FIFO queue guarded by
  a mutex, `schedule` (submission), and the worker loop `run_thread` as a small
  step relation `PStep` over one worker's view, with environment interference
  (submissions by other threads, `request_stop` from the destructor).
* `Tasks` namespace — the task layer (`task<T>`, `task<T>::state`,
  `coroutine_promise`): the single-assignment result slot (`std::promise` /
  `std::shared_future`), coroutine resumption, handle invalidation at
  `final_suspend`, and `shared_ptr`/`weak_ptr` reference counting, as a system
  step relation `BStep`.
* `Examples` namespace — the demonstration bodies `async_add` and `async_fib`
  as pure functions.

Mutex discipline is modelled by atomicity: every region of `run_thread` that
the source executes while holding `mutex_` is one transition of `PStep`, and
environment submissions interleave only where the lock is free (inside
`cva_.wait`, which releases the lock, and outside the locked regions).
-/

namespace Pool

/-- Control position of one worker inside `thread_pool::run_thread`
(main.cpp lines 52-68): at the top of the `while (true)` loop, blocked in
`cva_.wait`, at the `stoken.stop_requested()` check after the wait returns,
running `next->execute()` with the lock released, or out of the loop. -/
inductive WPhase where
  | atTop
  | inWait
  | checkStop
  | executing (item : Nat) : WPhase
  | exited
deriving DecidableEq

/-- One worker's view of the pool: the shared FIFO `queue_` of work items
(identified by numbers), the stop flag of the worker's `stop_token`, and the
worker's control position.  `submitted` and `done` are history variables: the
sequence of all items ever submitted, and of items whose `execute()` call has
returned, in order.  `notifies` counts `cva_.notify_one()` calls. -/
structure PoolCfg where
  queue : List Nat
  stop : Bool
  wphase : WPhase
  submitted : List Nat
  done : List Nat
  notifies : Nat
deriving DecidableEq

/-- The initial configuration: empty queue, no stop request, worker at the
top of its loop. -/
def pInit : PoolCfg :=
  { queue := [], stop := false, wphase := .atTop
    submitted := [], done := [], notifies := 0 }

/-- Embeds `thread_pool::schedule` (main.cpp lines 35-41): push the item at
the tail of `queue_` under the lock, then `cva_.notify_one()`. -/
def schedule (c : PoolCfg) (i : Nat) : PoolCfg :=
  { c with queue := c.queue ++ [i]
           submitted := c.submitted ++ [i]
           notifies := c.notifies + 1 }

/-- Embeds `jthread::request_stop`, issued by the pool destructor
(main.cpp line 49): the stop flag becomes and stays true. -/
def requestStop (c : PoolCfg) : PoolCfg :=
  { c with stop := true }

/-- Small-step semantics of `run_thread` (main.cpp lines 52-68) for one
worker, interleaved with the environment.  `cva_.wait(lock, stoken, pred)`
follows its standard semantics: it returns when the predicate holds or when
stop has been requested, and the code then re-checks `stop_requested()`
(which another thread may set at any moment, without the queue lock). -/
inductive PStep : PoolCfg → PoolCfg → Prop where
  | push (c : PoolCfg) (i : Nat) : PStep c (schedule c i)
  | reqStop (c : PoolCfg) : PStep c (requestStop c)
  | topWait (c : PoolCfg) : c.wphase = .atTop → c.queue = [] →
      PStep c { c with wphase := .inWait }
  | topTake (c : PoolCfg) (i : Nat) (rest : List Nat) :
      c.wphase = .atTop → c.queue = i :: rest →
      PStep c { c with queue := rest, wphase := .executing i }
  | wake (c : PoolCfg) : c.wphase = .inWait → (c.queue ≠ [] ∨ c.stop = true) →
      PStep c { c with wphase := .checkStop }
  | stopExit (c : PoolCfg) : c.wphase = .checkStop → c.stop = true →
      PStep c { c with wphase := .exited }
  | waitTake (c : PoolCfg) (i : Nat) (rest : List Nat) :
      c.wphase = .checkStop → c.stop = false → c.queue = i :: rest →
      PStep c { c with queue := rest, wphase := .executing i }
  | execDone (c : PoolCfg) (i : Nat) : c.wphase = .executing i →
      PStep c { c with wphase := .atTop, done := c.done ++ [i] }

/-- Reachability from the initial pool configuration. -/
def PReach (c : PoolCfg) : Prop :=
  Relation.ReflTransGen PStep pInit c

/-- FIFO bookkeeping invariant: the submission history always splits into the
items already executed, the item currently executing (if any), and the items
still queued, in submission order. -/
def fifoInv (c : PoolCfg) : Prop :=
  (∀ i, c.wphase = .executing i → c.submitted = c.done ++ i :: c.queue) ∧
  ((∀ i, c.wphase ≠ .executing i) → c.submitted = c.done ++ c.queue)

theorem fifoInv_step (c c' : PoolCfg) (h : PStep c c') (hi : fifoInv c) :
    fifoInv c' := by
  obtain ⟨h1, h2⟩ := hi
  cases h with
  | push i =>
      refine ⟨fun j hj => ?_, fun hj => ?_⟩
      · have := h1 j hj
        simp [schedule, this]
      · have := h2 hj
        simp [schedule, this]
  | reqStop =>
      exact ⟨h1, h2⟩
  | topWait hw hq =>
      refine ⟨fun j hj => by simp at hj, fun _ => ?_⟩
      have := h2 (by simp [hw])
      simpa using this
  | topTake i rest hw hq =>
      refine ⟨fun j hj => ?_, fun hj => ?_⟩
      · have := h2 (by simp [hw])
        simp at hj
        subst hj
        simpa [hq] using this
      · exact absurd rfl (hj i)
  | wake hw hg =>
      refine ⟨fun j hj => by simp at hj, fun _ => ?_⟩
      have := h2 (by simp [hw])
      simpa using this
  | stopExit hw hs =>
      refine ⟨fun j hj => by simp at hj, fun _ => ?_⟩
      have := h2 (by simp [hw])
      simpa using this
  | waitTake i rest hw hs hq =>
      refine ⟨fun j hj => ?_, fun hj => ?_⟩
      · have := h2 (by simp [hw])
        simp at hj
        subst hj
        simpa [hq] using this
      · exact absurd rfl (hj i)
  | execDone i hw =>
      refine ⟨fun j hj => by simp at hj, fun _ => ?_⟩
      have := h1 i hw
      simp [this]

theorem fifoInv_reach (c : PoolCfg) (h : PReach c) : fifoInv c := by
  induction h with
  | refl => exact ⟨fun j hj => by simp [pInit] at hj, fun _ => by simp [pInit]⟩
  | tail hs hstep ih => exact fifoInv_step _ _ hstep ih

/-- C7: `thread_pool::schedule` appends exactly the submitted item at the tail
of the FIFO queue, leaving every previously queued item in place and in
order, issues exactly one wake notification, and changes nothing else of the
pool configuration (the worker and the stop flag are untouched, and the call
returns no value). -/
theorem c7_submit_contract (c : PoolCfg) (i : Nat) :
    (schedule c i).queue = c.queue ++ [i] ∧
    (schedule c i).notifies = c.notifies + 1 ∧
    (schedule c i).stop = c.stop ∧
    (schedule c i).wphase = c.wphase ∧
    (schedule c i).done = c.done ∧
    (schedule c i).submitted = c.submitted ++ [i] :=
  ⟨rfl, rfl, rfl, rfl, rfl, rfl⟩

/-- C4 (amended): structure of every worker-loop transition.  (a,b) from the
top of the loop with an empty queue the worker can only move into the
condition-variable wait; a wait only returns once an item has been enqueued
or stop has been requested; (c) the loop is exited only from the
post-wait stop check, with stop requested — the queue was empty when the
worker began waiting, but may have become non-empty again by the time of
exit; (d) execution of an item begins only by dequeuing exactly that one
item from the front of the queue, at the top of the loop or after a wait. -/
theorem c4_worker_loop_structure (c c' : PoolCfg) (h : PStep c c') :
    (c.wphase = .atTop → c.queue = [] → c'.wphase ≠ c.wphase → c'.wphase = .inWait) ∧
    (c'.wphase = .exited → c.wphase = .exited ∨ (c.wphase = .checkStop ∧ c.stop = true)) ∧
    (c.wphase = .inWait → c'.wphase = .checkStop → (c.queue ≠ [] ∨ c.stop = true)) ∧
    (∀ i, c'.wphase = .executing i → c.wphase = .executing i ∨
      (c.queue = i :: c'.queue ∧ (c.wphase = .atTop ∨ c.wphase = .checkStop))) := by
  cases h with
  | push i =>
      refine ⟨fun _ _ h3 => absurd rfl h3, fun h1 => Or.inl h1,
        fun hiw hcs => ?_, fun j hx => Or.inl hx⟩
      simp only [schedule] at hcs
      simp [hiw] at hcs
  | reqStop =>
      refine ⟨fun _ _ h3 => absurd rfl h3, fun h1 => Or.inl h1,
        fun hiw hcs => ?_, fun j hx => Or.inl hx⟩
      simp only [requestStop] at hcs
      simp [hiw] at hcs
  | topWait hw hq =>
      refine ⟨fun _ _ _ => rfl, fun h1 => by simp at h1,
        fun hiw _ => by simp [hw] at hiw, fun j hx => by simp at hx⟩
  | topTake i rest hw hq =>
      refine ⟨fun _ h2 _ => ?_, fun h1 => by simp at h1,
        fun hiw _ => by simp [hw] at hiw, fun j hx => ?_⟩
      · rw [hq] at h2; simp at h2
      · simp at hx
        subst hx
        exact Or.inr ⟨hq, Or.inl hw⟩
  | wake hw hg =>
      refine ⟨fun h1 _ _ => by simp [hw] at h1, fun h1 => by simp at h1,
        fun _ _ => hg, fun j hx => by simp at hx⟩
  | stopExit hw hs =>
      refine ⟨fun h1 _ _ => by simp [hw] at h1, fun _ => Or.inr ⟨hw, hs⟩,
        fun hiw _ => by simp [hw] at hiw, fun j hx => by simp at hx⟩
  | waitTake i rest hw hs hq =>
      refine ⟨fun h1 _ _ => by simp [hw] at h1, fun h1 => by simp at h1,
        fun hiw _ => by simp [hw] at hiw, fun j hx => ?_⟩
      simp at hx
      subst hx
      exact Or.inr ⟨hq, Or.inr hw⟩
  | execDone i hw =>
      refine ⟨fun h1 _ _ => by simp [hw] at h1, fun h1 => by simp at h1,
        fun hiw _ => by simp [hw] at hiw, fun j hx => by simp at hx⟩

/-- Configuration exhibited against the original reading of claim C4: the
worker has exited its loop while the queue still holds item 5. -/
def cfgC4 : PoolCfg :=
  { queue := [5], stop := true, wphase := .exited
    submitted := [5], done := [], notifies := 1 }

/-- C4 counterexample: the claim that the worker exits the loop only when
stop has been requested AND the queue is empty is false.  Concrete run: the
queue is empty, the worker begins waiting, item 5 is submitted, stop is
requested, the wait wakes, and `if (stoken.stop_requested()) break;` exits
the loop with item 5 still queued. -/
theorem c4_counterexample :
    PReach cfgC4 ∧ cfgC4.wphase = .exited ∧ cfgC4.queue ≠ [] := by
  refine ⟨?_, rfl, by decide⟩
  have h1 : PStep pInit { pInit with wphase := .inWait } :=
    PStep.topWait pInit rfl rfl
  have h2 : PStep { pInit with wphase := .inWait }
      (schedule { pInit with wphase := .inWait } 5) :=
    PStep.push _ 5
  have h3 : PStep (schedule { pInit with wphase := .inWait } 5)
      (requestStop (schedule { pInit with wphase := .inWait } 5)) :=
    PStep.reqStop _
  have h4 : PStep (requestStop (schedule { pInit with wphase := .inWait } 5))
      { requestStop (schedule { pInit with wphase := .inWait } 5) with
          wphase := .checkStop } :=
    PStep.wake _ rfl (Or.inr rfl)
  have h5 : PStep { requestStop (schedule { pInit with wphase := .inWait } 5) with
      wphase := .checkStop } cfgC4 :=
    PStep.stopExit _ rfl rfl
  exact Relation.ReflTransGen.tail (Relation.ReflTransGen.tail
    (Relation.ReflTransGen.tail (Relation.ReflTransGen.tail
      (Relation.ReflTransGen.single h1) h2) h3) h4) h5

/-- Witness for the amended C4 theorem at a concrete step: from the initial
configuration the worker finds the queue empty and moves into the wait. -/
theorem c4_worker_loop_structure_witness :
    PStep pInit { pInit with wphase := Pool.WPhase.inWait } ∧
    ({ pInit with wphase := Pool.WPhase.inWait }.wphase = .inWait) := by
  have h : PStep pInit { pInit with wphase := Pool.WPhase.inWait } :=
    PStep.topWait pInit rfl rfl
  exact ⟨h, (c4_worker_loop_structure pInit _ h).1 rfl rfl (by decide)⟩

/-- Configuration for the C6 witness: items 1 and 2 were submitted in that
order and the single worker is executing item 1. -/
def cfgC6 : PoolCfg :=
  { queue := [2], stop := false, wphase := .executing 1
    submitted := [1, 2], done := [], notifies := 2 }

theorem cfgC6_reach : PReach cfgC6 := by
  have h1 : PStep pInit (schedule pInit 1) := PStep.push _ 1
  have h2 : PStep (schedule pInit 1) (schedule (schedule pInit 1) 2) :=
    PStep.push _ 2
  have h3 : PStep (schedule (schedule pInit 1) 2) cfgC6 :=
    PStep.topTake _ 1 [2] rfl rfl
  exact Relation.ReflTransGen.tail (Relation.ReflTransGen.tail
    (Relation.ReflTransGen.single h1) h2) h3

/-- C6: FIFO service under a single worker.  In every reachable
configuration in which the worker is executing item `i`, the submission
history splits as `done ++ i :: queue`: every item submitted before `i` has
already been executed to completion (it is in `done`), so an item submitted
earlier finishes before a later one begins. -/
theorem c6_fifo_single_worker (c : PoolCfg) (i : Nat) (hr : PReach c)
    (hx : c.wphase = .executing i) :
    c.submitted = c.done ++ i :: c.queue :=
  (fifoInv_reach c hr).1 i hx

/-- Witness for C6 at the concrete run `cfgC6`. -/
theorem c6_fifo_single_worker_witness :
    PReach cfgC6 ∧ cfgC6.submitted = cfgC6.done ++ 1 :: cfgC6.queue :=
  ⟨cfgC6_reach, c6_fifo_single_worker cfgC6 1 cfgC6_reach rfl⟩

end Pool

namespace Tasks

/-- Identity of a captured failure (`std::exception_ptr` from
`std::current_exception()`). -/
structure Exc where
  id : Nat
deriving DecidableEq

/-- The error `std::promise` raises on a second write to its shared state. -/
inductive FutureErr where
  | promiseAlreadySatisfied
deriving DecidableEq

/-- Writing the shared state of `std::promise` ([futures.state]): the first
write stores the outcome; any later write leaves the stored outcome
unchanged and raises `promise_already_satisfied`. -/
def promiseSet {α : Type} (slot : Option α) (o : α) :
    Option α × Option FutureErr :=
  match slot with
  | none => (some o, none)
  | some x => (some x, some .promiseAlreadySatisfied)

/-- One `task<T>::state` record together with its coroutine frame
(main.cpp lines 108-156).  `handle` is whether `handle_` is non-null;
`body` is the outcome the coroutine body produces when resumed (`Except.ok`
for `co_return`, `Except.error` for an escaped exception); `result` is the
slot of `result_` / `shared_future_`; `callerRefs` counts the `shared_ptr`
references held through `task` handles.  `resumes`, `resumesInvalid` and
`writes` are history variables: how often `handle_.resume()` ran, how often
it ran with `handle_` null, and how often the result slot was successfully
written. -/
structure TaskRec (T : Type) where
  handle : Bool
  body : Except Exc T
  result : Option (Except Exc T)
  callerRefs : Nat
  resumes : Nat
  resumesInvalid : Nat
  writes : Nat

/-- Embeds `state::set_result` (main.cpp lines 120-122):
`result_.set_value(value)`. -/
def set_result {T : Type} (t : TaskRec T) (v : T) :
    TaskRec T × Option FutureErr :=
  match promiseSet t.result (Except.ok v) with
  | (slot, none) => ({ t with result := slot, writes := t.writes + 1 }, none)
  | (slot, some e) => ({ t with result := slot }, some e)

/-- Embeds `coroutine_promise::unhandled_exception` writing the captured
failure: `result_.set_exception(std::current_exception())`
(main.cpp lines 148-150). -/
def set_exception {T : Type} (t : TaskRec T) (e : Exc) :
    TaskRec T × Option FutureErr :=
  match promiseSet t.result (Except.error e) with
  | (slot, none) => ({ t with result := slot, writes := t.writes + 1 }, none)
  | (slot, some r) => ({ t with result := slot }, some r)

/-- Embeds the blocking read `shared_future_.get()` behind
`task<T>::get_result` (main.cpp lines 94-96, 117-119): `none` means the
reader is still blocked; `some (Except.ok v)` yields the value;
`some (Except.error e)` re-raises the captured failure to the reader.  The
read does not mutate the record: the slot is not consumed. -/
def get_result {T : Type} (t : TaskRec T) : Option (Except Exc T) :=
  t.result

/-- Embeds `state::execute` (main.cpp lines 114-116): `handle_.resume()`
runs the body to completion; `co_return v` calls `return_value`
(`set_result`), an escaped exception calls `unhandled_exception`
(`set_exception`), and `final_suspend` then nulls `handle_`
(main.cpp lines 141-150). -/
def runBody {T : Type} (t : TaskRec T) : TaskRec T × Option FutureErr :=
  let t1 : TaskRec T :=
    { t with resumes := t.resumes + 1
             resumesInvalid := t.resumesInvalid + (if t.handle then 0 else 1) }
  match t.body with
  | .ok v =>
      let r := set_result t1 v
      ({ r.1 with handle := false }, r.2)
  | .error e =>
      let r := set_exception t1 e
      ({ r.1 with handle := false }, r.2)

/-- The task system: the heap of task states (indexed by identifiers below
`nextId`), the pool's FIFO queue of work items (each a `shared_ptr` to a
state, kept as its identifier), and the strong reference `next` a worker
holds while executing one item. -/
structure Sys (T : Type) where
  tasks : Nat → Option (TaskRec T)
  nextId : Nat
  queue : List Nat
  holding : Option Nat

/-- Occurrences of identifier `i` in a list of work items. -/
def countId (l : List Nat) (i : Nat) : Nat :=
  match l with
  | [] => 0
  | j :: rest => (if j = i then 1 else 0) + countId rest i

/-- Strong `shared_ptr` reference count of the state of task `i`: caller
handles, copies owned by the pool queue, and the worker's `next` pointer. -/
def strongCount {T : Type} (s : Sys T) (i : Nat) : Nat :=
  (match s.tasks i with
   | some t => t.callerRefs
   | none => 0)
  + countId s.queue i + (if s.holding = some i then 1 else 0)

/-- Embeds `coroutine_promise::get_state` (main.cpp lines 151-155): locking
the `weak_ptr` succeeds exactly when some strong reference is live; `none`
is the case in which `assert(state)` would fire. -/
def lockState {T : Type} (s : Sys T) (i : Nat) : Option (TaskRec T) :=
  if 0 < strongCount s i then s.tasks i else none

/-- The state created for a freshly constructed task: live handle, body not
yet run, empty result slot, one caller reference. -/
def mkTask {T : Type} (body : Except Exc T) : TaskRec T :=
  { handle := true, body := body, result := none
    callerRefs := 1, resumes := 0, resumesInvalid := 0, writes := 0 }

/-- Embeds task construction (main.cpp lines 82-87, 101-103, 133-140):
`get_return_object` allocates the shared state, `initial_suspend` returns
the `task_scheduler`, whose `await_suspend` submits the state to the pool —
exactly one work item, appended at the queue tail; the creator keeps the
handle and runs nothing of the body. -/
def spawn {T : Type} (s : Sys T) (body : Except Exc T) : Sys T :=
  { tasks := Function.update s.tasks s.nextId (some (mkTask body))
    nextId := s.nextId + 1
    queue := s.queue ++ [s.nextId]
    holding := s.holding }

/-- Effect of a worker finishing `next->execute()` on task `i` whose state
is `t`: the task record is replaced by the result of `runBody` and the
worker drops its strong reference. -/
def finishSys {T : Type} (s : Sys T) (i : Nat) (t : TaskRec T) : Sys T :=
  { s with tasks := Function.update s.tasks i (some (runBody t).1)
           holding := none }

/-- A caller destroys one copy of the task handle: one strong reference to
the state of task `i` goes away. -/
def dropSys {T : Type} (s : Sys T) (i : Nat) (t : TaskRec T) : Sys T :=
  { s with tasks :=
      Function.update s.tasks i (some { t with callerRefs := t.callerRefs - 1 }) }

/-- A worker dequeues the front work item, moving the queue's strong
reference into its local `next` pointer (main.cpp lines 63-65). -/
def takeSys {T : Type} (s : Sys T) (i : Nat) (rest : List Nat) : Sys T :=
  { s with queue := rest, holding := some i }

/-- System steps: task creation (with immediate submission), a caller
dropping one task-handle reference, a worker dequeuing the front work item
(taking over its strong reference), and a worker executing the held item to
completion. -/
inductive BStep {T : Type} : Sys T → Sys T → Prop where
  | spawnStep (s : Sys T) (body : Except Exc T) : BStep s (spawn s body)
  | dropStep (s : Sys T) (i : Nat) (t : TaskRec T) :
      s.tasks i = some t → 0 < t.callerRefs → BStep s (dropSys s i t)
  | takeStep (s : Sys T) (i : Nat) (rest : List Nat) :
      s.holding = none → s.queue = i :: rest → BStep s (takeSys s i rest)
  | finishStep (s : Sys T) (i : Nat) (t : TaskRec T) :
      s.holding = some i → lockState s i = some t →
      BStep s (finishSys s i t)

/-- The empty initial system. -/
def sInit (T : Type) : Sys T :=
  { tasks := fun _ => none, nextId := 0, queue := [], holding := none }

/-- Reachability from the empty system. -/
def BReach {T : Type} (s : Sys T) : Prop :=
  Relation.ReflTransGen BStep (sInit T) s

/-- Number of in-flight references to task `i`: queue entries plus the
worker's held item. -/
def inflightCount {T : Type} (s : Sys T) (i : Nat) : Nat :=
  countId s.queue i + (if s.holding = some i then 1 else 0)

/-- A task state whose body has not yet been resumed. -/
def pendingT {T : Type} (t : TaskRec T) : Prop :=
  t.handle = true ∧ t.result = none ∧ t.resumes = 0 ∧
  t.resumesInvalid = 0 ∧ t.writes = 0

/-- A task state whose body has run to completion: the handle is
invalidated, the slot holds the body's outcome, written exactly once, after
exactly one resumption of a valid handle. -/
def finishedT {T : Type} (t : TaskRec T) : Prop :=
  t.handle = false ∧ t.result = some t.body ∧ t.resumes = 1 ∧
  t.resumesInvalid = 0 ∧ t.writes = 1

/-- The system invariant: identifiers at or above `nextId` are unallocated;
unallocated identifiers are not in flight; every allocated task is either
pending with exactly one in-flight reference, or finished with none. -/
def SysInv {T : Type} (s : Sys T) : Prop :=
  (∀ i, s.nextId ≤ i → s.tasks i = none) ∧
  (∀ i, s.tasks i = none → inflightCount s i = 0) ∧
  (∀ i t, s.tasks i = some t →
    (inflightCount s i = 1 ∧ pendingT t) ∨
    (inflightCount s i = 0 ∧ finishedT t))

theorem countId_append (l1 l2 : List Nat) (i : Nat) :
    countId (l1 ++ l2) i = countId l1 i + countId l2 i := by
  induction l1 with
  | nil => simp [countId]
  | cons j rest ih => simp [countId, ih]; omega

theorem runBody_of_pendingT {T : Type} (t : TaskRec T) (hp : pendingT t) :
    finishedT (runBody t).1 ∧ (runBody t).1.body = t.body ∧
    (runBody t).1.callerRefs = t.callerRefs ∧ (runBody t).2 = none := by
  obtain ⟨hh, hr, h1, h2, h3⟩ := hp
  cases hb : t.body with
  | ok v =>
      simp [runBody, set_result, promiseSet, hb, hr, hh, finishedT, h1, h2, h3]
  | error e =>
      simp [runBody, set_exception, promiseSet, hb, hr, hh, finishedT, h1, h2, h3]

theorem runBody_result_stable {T : Type} (t : TaskRec T) (o : Except Exc T)
    (h : t.result = some o) :
    (runBody t).1.result = some o ∧ (runBody t).1.body = t.body := by
  cases hb : t.body with
  | ok v => simp [runBody, set_result, promiseSet, hb, h]
  | error e => simp [runBody, set_exception, promiseSet, hb, h]

theorem inflight_spawn {T : Type} (s : Sys T) (body : Except Exc T) (i : Nat) :
    inflightCount (spawn s body) i =
    inflightCount s i + (if s.nextId = i then 1 else 0) := by
  simp [inflightCount, spawn, countId_append, countId]
  omega

theorem inflight_take {T : Type} (s : Sys T) (i : Nat) (rest : List Nat)
    (hh : s.holding = none) (hq : s.queue = i :: rest) (j : Nat) :
    inflightCount (takeSys s i rest) j = inflightCount s j := by
  simp [inflightCount, takeSys, hq, hh, countId]
  omega

theorem inflight_finish {T : Type} (s : Sys T) (i : Nat) (t : TaskRec T)
    (hh : s.holding = some i) (j : Nat) :
    inflightCount (finishSys s i t) j + (if i = j then 1 else 0) =
    inflightCount s j := by
  simp [inflightCount, finishSys, hh]

theorem sysInv_step {T : Type} {s s' : Sys T} (h : BStep s s')
    (hinv : SysInv s) : SysInv s' := by
  obtain ⟨inv1, inv2, inv3⟩ := hinv
  cases h with
  | spawnStep body =>
      refine ⟨?_, ?_, ?_⟩
      · intro i hi
        simp only [spawn] at hi ⊢
        have hne : i ≠ s.nextId := by omega
        rw [Function.update_noteq hne]
        exact inv1 i (by omega)
      · intro i hti
        rw [inflight_spawn]
        by_cases hne : i = s.nextId
        · subst hne
          simp only [spawn, Function.update_same] at hti
          exact Option.noConfusion hti
        · simp only [spawn] at hti
          rw [Function.update_noteq hne] at hti
          rw [if_neg (fun h => hne h.symm), inv2 i hti]
      · intro i t hti
        rw [inflight_spawn]
        by_cases hne : i = s.nextId
        · subst hne
          simp only [spawn, Function.update_same] at hti
          have ht := Option.some.inj hti
          subst ht
          refine Or.inl ⟨?_, rfl, rfl, rfl, rfl, rfl⟩
          rw [inv2 _ (inv1 _ le_rfl), if_pos rfl]
        · simp only [spawn] at hti
          rw [Function.update_noteq hne] at hti
          rw [if_neg (fun h => hne h.symm)]
          rcases inv3 i t hti with ⟨h1, h2⟩ | ⟨h1, h2⟩
          · exact Or.inl ⟨by rw [h1], h2⟩
          · exact Or.inr ⟨by rw [h1], h2⟩
  | dropStep i t hti hpos =>
      have einf : ∀ j, inflightCount (dropSys s i t) j = inflightCount s j :=
        fun _ => rfl
      refine ⟨?_, ?_, ?_⟩
      · intro j hj
        simp only [dropSys] at hj ⊢
        have hne : j ≠ i := by
          intro he
          subst he
          rw [inv1 j hj] at hti
          exact Option.noConfusion hti
        rw [Function.update_noteq hne]
        exact inv1 j hj
      · intro j htj
        rw [einf]
        simp only [dropSys] at htj
        by_cases hne : j = i
        · subst hne
          rw [Function.update_same] at htj
          exact Option.noConfusion htj
        · rw [Function.update_noteq hne] at htj
          exact inv2 j htj
      · intro j u htj
        rw [einf]
        simp only [dropSys] at htj
        by_cases hne : j = i
        · subst hne
          rw [Function.update_same] at htj
          have hu := Option.some.inj htj
          subst hu
          rcases inv3 j t hti with ⟨h1, h2⟩ | ⟨h1, h2⟩
          · exact Or.inl ⟨h1, h2.1, h2.2.1, h2.2.2.1, h2.2.2.2⟩
          · exact Or.inr ⟨h1, h2.1, h2.2.1, h2.2.2.1, h2.2.2.2⟩
        · rw [Function.update_noteq hne] at htj
          exact inv3 j u htj
  | takeStep i rest hh hq =>
      refine ⟨?_, ?_, ?_⟩
      · intro j hj
        exact inv1 j hj
      · intro j htj
        rw [inflight_take s i rest hh hq]
        exact inv2 j htj
      · intro j u htj
        rw [inflight_take s i rest hh hq]
        exact inv3 j u htj
  | finishStep i t hh hl =>
      have hti : s.tasks i = some t := by
        by_cases hpos : 0 < strongCount s i
        · rw [lockState, if_pos hpos] at hl
          exact hl
        · rw [lockState, if_neg hpos] at hl
          exact Option.noConfusion hl
      have hpend : inflightCount s i = 1 ∧ pendingT t := by
        rcases inv3 i t hti with hc | ⟨h1, _⟩
        · exact hc
        · exfalso
          have : 0 < inflightCount s i := by
            rw [inflightCount, hh, if_pos rfl]
            omega
          omega
      refine ⟨?_, ?_, ?_⟩
      · intro j hj
        simp only [finishSys] at hj ⊢
        have hne : j ≠ i := by
          intro he
          subst he
          rw [inv1 j hj] at hti
          exact Option.noConfusion hti
        rw [Function.update_noteq hne]
        exact inv1 j hj
      · intro j htj
        simp only [finishSys] at htj
        by_cases hne : j = i
        · subst hne
          rw [Function.update_same] at htj
          exact Option.noConfusion htj
        · rw [Function.update_noteq hne] at htj
          have h0 := inv2 j htj
          have := inflight_finish s i t hh j
          omega
      · intro j u htj
        simp only [finishSys] at htj
        have hstep := inflight_finish s i t hh j
        by_cases hne : j = i
        · subst hne
          rw [Function.update_same] at htj
          have hu := Option.some.inj htj
          subst hu
          refine Or.inr ⟨?_, (runBody_of_pendingT t hpend.2).1⟩
          rw [if_pos rfl] at hstep
          omega
        · rw [Function.update_noteq hne] at htj
          rw [if_neg (fun h => hne h.symm)] at hstep
          rcases inv3 j u htj with ⟨h1, h2⟩ | ⟨h1, h2⟩
          · exact Or.inl ⟨by omega, h2⟩
          · exact Or.inr ⟨by omega, h2⟩

theorem sysInv_sInit (T : Type) : SysInv (sInit T) :=
  ⟨fun _ _ => rfl, fun _ _ => rfl, fun _ _ hti => Option.noConfusion hti⟩

theorem sysInv_rtg {T : Type} {s s' : Sys T}
    (h : Relation.ReflTransGen BStep s s') (hinv : SysInv s) : SysInv s' := by
  induction h with
  | refl => exact hinv
  | tail hs hstep ih => exact sysInv_step hstep ih

theorem sysInv_reach {T : Type} {s : Sys T} (h : BReach s) : SysInv s :=
  sysInv_rtg h (sysInv_sInit T)

theorem runBody_body {T : Type} (t : TaskRec T) :
    (runBody t).1.body = t.body := by
  cases hb : t.body with
  | ok v =>
      cases hr : t.result with
      | none => simp [runBody, set_result, promiseSet, hb, hr]
      | some o => simp [runBody, set_result, promiseSet, hb, hr]
  | error e =>
      cases hr : t.result with
      | none => simp [runBody, set_exception, promiseSet, hb, hr]
      | some o => simp [runBody, set_exception, promiseSet, hb, hr]

theorem lockState_some {T : Type} {s : Sys T} {i : Nat} {t : TaskRec T}
    (hl : lockState s i = some t) : s.tasks i = some t := by
  by_cases hpos : 0 < strongCount s i
  · rw [lockState, if_pos hpos] at hl
    exact hl
  · rw [lockState, if_neg hpos] at hl
    exact Option.noConfusion hl

theorem lockState_of_holding {T : Type} {s : Sys T} {i : Nat} {t : TaskRec T}
    (hh : s.holding = some i) (ht : s.tasks i = some t) :
    lockState s i = some t := by
  rw [lockState, if_pos]
  · exact ht
  · simp [strongCount, hh, ht]

theorem holding_pendingT {T : Type} {s : Sys T} {i : Nat} {t : TaskRec T}
    (hinv : SysInv s) (hh : s.holding = some i) (ht : s.tasks i = some t) :
    inflightCount s i = 1 ∧ pendingT t := by
  rcases hinv.2.2 i t ht with hc | ⟨h1, _⟩
  · exact hc
  · exfalso
    simp [inflightCount, hh] at h1

theorem bstep_task_mono {T : Type} {s s' : Sys T} (h : BStep s s')
    (hinv : SysInv s) (i : Nat) (t : TaskRec T) (ht : s.tasks i = some t) :
    ∃ t', s'.tasks i = some t' ∧ t'.body = t.body ∧
      (∀ o, t.result = some o → t'.result = some o) := by
  cases h with
  | spawnStep body =>
      have hne : i ≠ s.nextId := by
        intro he
        rw [he, hinv.1 s.nextId le_rfl] at ht
        exact Option.noConfusion ht
      refine ⟨t, ?_, rfl, fun _ ho => ho⟩
      simp only [spawn]
      rw [Function.update_noteq hne]
      exact ht
  | dropStep j u hju hpos =>
      by_cases hne : i = j
      · subst hne
        rw [ht] at hju
        have he := Option.some.inj hju
        subst he
        refine ⟨{ t with callerRefs := t.callerRefs - 1 }, ?_, rfl, fun _ ho => ho⟩
        simp only [dropSys]
        rw [Function.update_same]
      · refine ⟨t, ?_, rfl, fun _ ho => ho⟩
        simp only [dropSys]
        rw [Function.update_noteq hne]
        exact ht
  | takeStep j rest hh hq =>
      exact ⟨t, ht, rfl, fun _ ho => ho⟩
  | finishStep j u hh hl =>
      by_cases hne : i = j
      · subst hne
        rw [lockState_some hl] at ht
        have he := Option.some.inj ht
        subst he
        refine ⟨(runBody u).1, ?_, runBody_body u, fun o ho => (runBody_result_stable u o ho).1⟩
        simp only [finishSys]
        rw [Function.update_same]
      · refine ⟨t, ?_, rfl, fun _ ho => ho⟩
        simp only [finishSys]
        rw [Function.update_noteq hne]
        exact ht

theorem rtg_task_mono {T : Type} {s s' : Sys T}
    (h : Relation.ReflTransGen BStep s s') (hinv : SysInv s)
    (i : Nat) (t : TaskRec T) (ht : s.tasks i = some t) :
    ∃ t', s'.tasks i = some t' ∧ t'.body = t.body ∧
      (∀ o, t.result = some o → t'.result = some o) := by
  induction h with
  | refl => exact ⟨t, ht, rfl, fun _ ho => ho⟩
  | tail hs hstep ih =>
      obtain ⟨t1, ht1, hb1, hr1⟩ := ih
      obtain ⟨t2, ht2, hb2, hr2⟩ :=
        bstep_task_mono hstep (sysInv_rtg hs hinv) _ _ ht1
      exact ⟨t2, ht2, hb2.trans hb1, fun o ho => hr2 o (hr1 o ho)⟩

/-- A worker clearing its held item: if the worker holds a work item, it
executes it (one `finishStep`); otherwise nothing happens. -/
def stepFinishF {T : Type} (s : Sys T) : Sys T :=
  match s.holding with
  | none => s
  | some i =>
    match s.tasks i with
    | none => s
    | some t => finishSys s i t

/-- A worker dequeuing the front item when idle. -/
def stepTakeF {T : Type} (s : Sys T) : Sys T :=
  match s.holding with
  | some _ => s
  | none =>
    match s.queue with
    | [] => s
    | i :: rest => takeSys s i rest

/-- Running the single worker until the queue is drained. -/
def drainAux {T : Type} : Nat → Sys T → Sys T
  | 0, s => s
  | n + 1, s => drainAux n (stepFinishF (stepTakeF s))

/-- A complete fair run of the worker from `s`: finish the held item, then
repeatedly dequeue and execute until the queue is empty. -/
def drain {T : Type} (s : Sys T) : Sys T :=
  drainAux s.queue.length (stepFinishF s)

theorem stepFinishF_id {T : Type} (s : Sys T) (hh : s.holding = none) :
    stepFinishF s = s := by
  simp [stepFinishF, hh]

theorem stepFinishF_eq {T : Type} (s : Sys T) (i : Nat) (t : TaskRec T)
    (hh : s.holding = some i) (ht : s.tasks i = some t) :
    stepFinishF s = finishSys s i t := by
  simp [stepFinishF, hh, ht]

theorem stepFinishF_spec {T : Type} (s : Sys T) (hinv : SysInv s) :
    Relation.ReflTransGen BStep s (stepFinishF s) ∧
    (stepFinishF s).holding = none ∧ (stepFinishF s).queue = s.queue := by
  cases hh : s.holding with
  | none =>
      rw [stepFinishF_id s hh]
      exact ⟨Relation.ReflTransGen.refl, hh, rfl⟩
  | some i =>
      cases ht : s.tasks i with
      | none =>
          exfalso
          have h0 := hinv.2.1 i ht
          simp [inflightCount, hh] at h0
      | some t =>
          rw [stepFinishF_eq s i t hh ht]
          exact ⟨Relation.ReflTransGen.single
            (BStep.finishStep s i t hh (lockState_of_holding hh ht)), rfl, rfl⟩

theorem drainAux_spec {T : Type} :
    ∀ (n : Nat) (s : Sys T), SysInv s → s.holding = none →
    s.queue.length ≤ n →
    Relation.ReflTransGen BStep s (drainAux n s) ∧
    (drainAux n s).queue = [] ∧ (drainAux n s).holding = none := by
  intro n
  induction n with
  | zero =>
      intro s hinv hh hlen
      have hq : s.queue = [] := List.eq_nil_of_length_eq_zero (Nat.le_zero.mp hlen)
      exact ⟨Relation.ReflTransGen.refl, hq, hh⟩
  | succ n ih =>
      intro s hinv hh hlen
      cases hq : s.queue with
      | nil =>
          have e1 : stepTakeF s = s := by simp [stepTakeF, hh, hq]
          have e3 : drainAux (n + 1) s = drainAux n s := by
            rw [drainAux, e1, stepFinishF_id s hh]
          rw [e3]
          exact ih s hinv hh (by simp [hq])
      | cons i rest =>
          have hs1 : BStep s (takeSys s i rest) := BStep.takeStep s i rest hh hq
          have hinv1 : SysInv (takeSys s i rest) := sysInv_step hs1 hinv
          cases ht : s.tasks i with
          | none =>
              exfalso
              have h0 := hinv.2.1 i ht
              simp [inflightCount, hq, countId] at h0
          | some t =>
              have ht1 : (takeSys s i rest).tasks i = some t := ht
              have hs2 : BStep (takeSys s i rest)
                  (finishSys (takeSys s i rest) i t) :=
                BStep.finishStep _ i t rfl (lockState_of_holding rfl ht1)
              have hinv2 : SysInv (finishSys (takeSys s i rest) i t) :=
                sysInv_step hs2 hinv1
              have e3 : drainAux (n + 1) s =
                  drainAux n (finishSys (takeSys s i rest) i t) := by
                rw [drainAux, stepTakeF, hh, hq,
                  stepFinishF_eq (takeSys s i rest) i t rfl ht1]
              have hlen2 : (finishSys (takeSys s i rest) i t).queue.length ≤ n := by
                have h5 : rest.length + 1 ≤ n + 1 := by
                  rw [← List.length_cons i rest, ← hq]
                  exact hlen
                show rest.length ≤ n
                omega
              obtain ⟨hr3, hq3, hh3⟩ :=
                ih (finishSys (takeSys s i rest) i t) hinv2 rfl hlen2
              rw [e3]
              exact ⟨((Relation.ReflTransGen.single hs1).tail hs2).trans hr3,
                hq3, hh3⟩

theorem drain_spec {T : Type} (s : Sys T) (hinv : SysInv s) :
    Relation.ReflTransGen BStep s (drain s) ∧
    (drain s).queue = [] ∧ (drain s).holding = none := by
  obtain ⟨hr1, hh1, hq1⟩ := stepFinishF_spec s hinv
  have hinv1 : SysInv (stepFinishF s) := sysInv_rtg hr1 hinv
  have hlen : (stepFinishF s).queue.length ≤ s.queue.length := by
    rw [hq1]
  obtain ⟨hr2, hq2, hh2⟩ :=
    drainAux_spec s.queue.length (stepFinishF s) hinv1 hh1 hlen
  exact ⟨hr1.trans hr2, hq2, hh2⟩

theorem drain_finished {T : Type} (s : Sys T) (hinv : SysInv s) (i : Nat)
    (t' : TaskRec T) (ht : (drain s).tasks i = some t') : finishedT t' := by
  obtain ⟨hr, hq, hh⟩ := drain_spec s hinv
  have hinv' := sysInv_rtg hr hinv
  rcases hinv'.2.2 i t' ht with ⟨h1, _⟩ | ⟨_, h2⟩
  · exfalso
    simp [inflightCount, hq, hh, countId] at h1
  · exact h2

/-- C1: single delivery.  Along any execution from a reachable system, each
task's result slot is written at most once (and exactly once after the
worker drains the queue); once written it never changes, so every blocking
retrieval through any copy of the task handle — `get_result` is
non-consuming, a pure read of the slot — observes the one identical
outcome, namely the body's value or its captured failure. -/
theorem c1_single_delivery {T : Type} (s s' : Sys T) (i : Nat)
    (t t' : TaskRec T) (hr : BReach s)
    (hs : Relation.ReflTransGen BStep s s')
    (ht : s.tasks i = some t) (ht' : s'.tasks i = some t') :
    t'.writes ≤ 1 ∧
    t'.body = t.body ∧
    (∀ o, get_result t = some o → get_result t' = some o) ∧
    (∀ o, get_result t' = some o → o = t'.body ∧ t'.writes = 1) ∧
    (∃ s'' t'', Relation.ReflTransGen BStep s' s'' ∧
      s''.tasks i = some t'' ∧ t''.body = t.body ∧
      get_result t'' = some t''.body ∧ t''.writes = 1) := by
  have hinv := sysInv_reach hr
  have hinv' := sysInv_rtg hs hinv
  obtain ⟨t1, ht1, hb1, hres1⟩ := rtg_task_mono hs hinv i t ht
  rw [ht'] at ht1
  have he := Option.some.inj ht1
  subst he
  refine ⟨?_, hb1, fun o ho => hres1 o ho, ?_, ?_⟩
  · rcases hinv'.2.2 i t' ht' with ⟨_, hp⟩ | ⟨_, hf⟩
    · rw [hp.2.2.2.2]
      omega
    · rw [hf.2.2.2.2]
  · intro o ho
    rcases hinv'.2.2 i t' ht' with ⟨_, hp⟩ | ⟨_, hf⟩
    · rw [get_result, hp.2.1] at ho
      exact Option.noConfusion ho
    · rw [get_result, hf.2.1] at ho
      exact ⟨(Option.some.inj ho).symm, hf.2.2.2.2⟩
  · obtain ⟨hrd, _, _⟩ := drain_spec s' hinv'
    obtain ⟨t2, ht2, hb2, _⟩ := rtg_task_mono hrd hinv' i t' ht'
    have hfin := drain_finished s' hinv' i t2 ht2
    exact ⟨drain s', t2, hrd, ht2, hb2.trans hb1, hfin.2.1, hfin.2.2.2.2⟩

/-- C2: no double-resume.  In every reachable system, every task has been
resumed at most once, a resume of an invalidated (null) handle has never
been attempted, and a task whose result slot is written is terminal: its
handle is nulled and no queue entry or worker reference to it remains, so
the runtime can never resume it again. -/
theorem c2_no_double_resume {T : Type} (s : Sys T) (i : Nat) (t : TaskRec T)
    (hr : BReach s) (ht : s.tasks i = some t) :
    t.resumes ≤ 1 ∧ t.resumesInvalid = 0 ∧
    (t.result ≠ none → t.handle = false ∧ inflightCount s i = 0) := by
  have hinv := sysInv_reach hr
  rcases hinv.2.2 i t ht with ⟨h1, h2⟩ | ⟨h1, h2⟩
  · refine ⟨?_, h2.2.2.2.1, fun hn => absurd h2.2.1 hn⟩
    rw [h2.2.2.1]
    omega
  · refine ⟨?_, h2.2.2.2.1, fun _ => ⟨h2.1, h1⟩⟩
    rw [h2.2.2.1]

/-- C3: failure isolation and re-raise.  If the worker executes a held task
whose body raises failure `e`, that failure is captured and stored in that
task's own result slot, every retrieval re-raises exactly `e`, and the
states of all other tasks are untouched by the execution. -/
theorem c3_failure_isolation {T : Type} (s : Sys T) (i : Nat)
    (t : TaskRec T) (e : Exc) (hr : BReach s) (hh : s.holding = some i)
    (hl : lockState s i = some t) (hb : t.body = Except.error e) :
    (∃ t', (finishSys s i t).tasks i = some t' ∧
      get_result t' = some (Except.error e) ∧ t'.handle = false ∧
      t'.writes = 1) ∧
    (∀ j, j ≠ i → (finishSys s i t).tasks j = s.tasks j) := by
  have hinv := sysInv_reach hr
  have hti : s.tasks i = some t := lockState_some hl
  have hpend := (holding_pendingT hinv hh hti).2
  obtain ⟨hfin, hbody, _, _⟩ := runBody_of_pendingT t hpend
  refine ⟨⟨(runBody t).1, ?_, ?_, hfin.1, hfin.2.2.2.2⟩, ?_⟩
  · simp only [finishSys]
    rw [Function.update_same]
  · show (runBody t).1.result = some (Except.error e)
    rw [hfin.2.1, hbody, hb]
  · intro j hj
    simp only [finishSys]
    rw [Function.update_noteq hj]

/-- C5: immediate scheduling at creation.  Constructing a task allocates a
fresh task state whose body has not run (no resumption, empty result slot,
live handle, one caller reference), appends exactly one work item for it at
the tail of the pool queue — its in-flight reference count is exactly one —
and leaves the creating thread's worker state untouched: the creator gets
its handle back without executing any of the body. -/
theorem c5_immediate_scheduling {T : Type} (s : Sys T)
    (body : Except Exc T) (hr : BReach s) :
    (spawn s body).queue = s.queue ++ [s.nextId] ∧
    (spawn s body).tasks s.nextId = some (mkTask body) ∧
    (spawn s body).holding = s.holding ∧
    (mkTask body : TaskRec T).resumes = 0 ∧
    (mkTask body : TaskRec T).result = none ∧
    (mkTask body : TaskRec T).handle = true ∧
    (mkTask body : TaskRec T).callerRefs = 1 ∧
    inflightCount (spawn s body) s.nextId = 1 := by
  have hinv := sysInv_reach hr
  refine ⟨rfl, ?_, rfl, rfl, rfl, rfl, rfl, ?_⟩
  · simp only [spawn]
    rw [Function.update_same]
  · rw [inflight_spawn, if_pos rfl,
      hinv.2.1 s.nextId (hinv.1 s.nextId le_rfl)]

/-- C9: whenever a worker holds a work item (is inside `next->execute()`),
the task state is kept alive by that very strong reference, so the
`weak_ptr::lock` inside `coroutine_promise::get_state` succeeds and
`assert(state)` cannot fire. -/
theorem c9_weak_lock_during_execute {T : Type} (s : Sys T) (i : Nat)
    (hr : BReach s) (hh : s.holding = some i) :
    0 < strongCount s i ∧
    ∃ t, s.tasks i = some t ∧ lockState s i = some t := by
  have hinv := sysInv_reach hr
  have hpos : 0 < strongCount s i := by
    simp [strongCount, hh]
  cases ht : s.tasks i with
  | none =>
      exfalso
      have h0 := hinv.2.1 i ht
      simp [inflightCount, hh] at h0
  | some t =>
      refine ⟨hpos, t, rfl, ?_⟩
      rw [lockState, if_pos hpos]
      exact ht

/-- C10: the single-assignment promise rejects a second write.  After the
slot holds an outcome, both `set_result` (a value write) and the
`set_exception` path (a failure write) raise `promise_already_satisfied`,
the stored outcome is unchanged and not silently overwritten, and every
reader still observes the first outcome. -/
theorem c10_promise_rejects_second_write {T : Type} (t : TaskRec T)
    (o : Except Exc T) (v : T) (e : Exc) (h : t.result = some o) :
    (set_result t v).2 = some FutureErr.promiseAlreadySatisfied ∧
    (set_result t v).1.result = some o ∧
    get_result (set_result t v).1 = some o ∧
    (set_result t v).1.writes = t.writes ∧
    (set_exception t e).2 = some FutureErr.promiseAlreadySatisfied ∧
    (set_exception t e).1.result = some o ∧
    get_result (set_exception t e).1 = some o ∧
    (set_exception t e).1.writes = t.writes := by
  simp [set_result, set_exception, promiseSet, get_result, h]

/-- Concrete run for the witnesses: one task with body `co_return 7`. -/
def sysA : Sys Int := spawn (sInit Int) (Except.ok 7)

/-- The worker has dequeued the task of `sysA`. -/
def sysB : Sys Int := takeSys sysA 0 []

/-- The worker has executed the task of `sysA` to completion. -/
def sysC : Sys Int := finishSys sysB 0 (mkTask (Except.ok 7))

/-- Concrete run with a failing body, dequeued by the worker. -/
def sysE : Sys Int := takeSys (spawn (sInit Int) (Except.error ⟨0⟩)) 0 []

theorem sysA_reach : BReach sysA :=
  Relation.ReflTransGen.single (BStep.spawnStep _ _)

theorem sysB_reach : BReach sysB :=
  sysA_reach.tail (BStep.takeStep sysA 0 [] rfl rfl)

theorem sysC_reach : BReach sysC :=
  sysB_reach.tail (BStep.finishStep sysB 0 (mkTask (Except.ok 7)) rfl rfl)

theorem sysE_reach : BReach sysE :=
  (Relation.ReflTransGen.single
    (BStep.spawnStep (sInit Int) (Except.error ⟨0⟩))).tail
    (BStep.takeStep (spawn (sInit Int) (Except.error ⟨0⟩)) 0 [] rfl rfl)

/-- Witness for C1 at the concrete system `sysA`. -/
theorem c1_single_delivery_witness :
    BReach sysA ∧ sysA.tasks 0 = some (mkTask (Except.ok 7)) ∧
    (mkTask (Except.ok (7 : Int))).writes ≤ 1 :=
  ⟨sysA_reach, rfl,
    (c1_single_delivery sysA sysA 0 (mkTask (Except.ok 7))
      (mkTask (Except.ok 7)) sysA_reach Relation.ReflTransGen.refl
      rfl rfl).1⟩

/-- Witness for C2 at the completed concrete system `sysC`. -/
theorem c2_no_double_resume_witness :
    BReach sysC ∧
    sysC.tasks 0 = some (runBody (mkTask (Except.ok 7))).1 ∧
    (runBody (mkTask (Except.ok (7 : Int)))).1.resumes ≤ 1 :=
  ⟨sysC_reach, rfl,
    (c2_no_double_resume sysC 0 (runBody (mkTask (Except.ok 7))).1
      sysC_reach rfl).1⟩

/-- Witness for C3 at the concrete failing run `sysE`. -/
theorem c3_failure_isolation_witness :
    BReach sysE ∧ sysE.holding = some 0 ∧
    lockState sysE 0 = some (mkTask (Except.error ⟨0⟩)) ∧
    (∀ j, j ≠ 0 →
      (finishSys sysE 0 (mkTask (Except.error ⟨0⟩))).tasks j = sysE.tasks j) :=
  ⟨sysE_reach, rfl, rfl,
    (c3_failure_isolation sysE 0 (mkTask (Except.error ⟨0⟩)) ⟨0⟩
      sysE_reach rfl rfl rfl).2⟩

/-- Witness for C5 at the empty initial system. -/
theorem c5_immediate_scheduling_witness :
    BReach (sInit Int) ∧
    (spawn (sInit Int) (Except.ok (7 : Int))).queue =
      (sInit Int).queue ++ [(sInit Int).nextId] ∧
    inflightCount (spawn (sInit Int) (Except.ok (7 : Int)))
      (sInit Int).nextId = 1 :=
  ⟨Relation.ReflTransGen.refl,
    (c5_immediate_scheduling (sInit Int) (Except.ok 7)
      Relation.ReflTransGen.refl).1,
    (c5_immediate_scheduling (sInit Int) (Except.ok 7)
      Relation.ReflTransGen.refl).2.2.2.2.2.2.2⟩

/-- Witness for C9 at the concrete system `sysB`, where the worker holds
task 0. -/
theorem c9_weak_lock_during_execute_witness :
    BReach sysB ∧ sysB.holding = some 0 ∧ 0 < strongCount sysB 0 :=
  ⟨sysB_reach, rfl, (c9_weak_lock_during_execute sysB 0 sysB_reach rfl).1⟩

/-- Witness for C10 at the concrete completed task record of `sysC`. -/
theorem c10_promise_rejects_second_write_witness :
    (runBody (mkTask (Except.ok (7 : Int)))).1.result =
      some (Except.ok 7) ∧
    (set_result (runBody (mkTask (Except.ok (7 : Int)))).1 9).2 =
      some FutureErr.promiseAlreadySatisfied :=
  ⟨rfl,
    (c10_promise_rejects_second_write (runBody (mkTask (Except.ok 7))).1
      (Except.ok 7) 9 ⟨0⟩ rfl).1⟩

end Tasks

namespace Examples

/-- Embeds the body of `async_add` (main.cpp lines 158-162): it returns
`a + b` (the debug print has no effect on the outcome). -/
def async_add (a b : Int) : Int := a + b

/-- The loop of `async_fib` (main.cpp lines 176-180): each iteration spawns
`async_add(a, b)` and blocks on its result, then shifts the window. -/
def fibLoop : Nat → Int → Int → Int
  | 0, _, b => b
  | k + 1, a, b => fibLoop k b (async_add a b)

/-- Embeds the body of `async_fib` (main.cpp lines 164-184): 1 for
`n <= 2`, otherwise `n - 2` iterations of the add loop from `a = b = 1`. -/
def async_fib (n : Int) : Int :=
  if n ≤ 2 then 1 else fibLoop (n - 2).toNat 1 1

/-- C8: the add task on inputs (3, 4) yields 7 — and running its lifecycle
through the task layer stores exactly one write of `7` in the slot that
every retriever reads; driving `async_fib` for n = 1..9 sequentially
yields 1, 1, 2, 3, 5, 8, 13, 21, 34 in order. -/
theorem c8_example_scenario :
    async_add 3 4 = 7 ∧
    (List.range 9).map (fun k => async_fib ((k : Int) + 1)) =
      [1, 1, 2, 3, 5, 8, 13, 21, 34] ∧
    Tasks.get_result
      (Tasks.runBody (Tasks.mkTask
        (Except.ok (async_add 3 4) : Except Tasks.Exc Int))).1 =
      some (Except.ok 7) ∧
    (Tasks.runBody (Tasks.mkTask
      (Except.ok (async_add 3 4) : Except Tasks.Exc Int))).1.writes = 1 := by
  refine ⟨rfl, ?_, rfl, rfl⟩
  decide

end Examples
